import Mathlib

/-!
Verification of the SimpleHTMLParser engine: a tolerant HTML tokenizer and
tree builder together with a CSS-subset selector compiler and matcher.

The TypeScript source is embedded shallowly:

* JavaScript strings are modelled as `List Char` (one entry per UTF-16 code
  unit; all inputs of interest are ASCII, and the one place the code can
  fabricate an arbitrary code unit, `String.fromCharCode`, is modelled by
  `jsFromCharCode`, which takes the value modulo 2 ^ 16 as JavaScript does;
  a value landing in the surrogate range is approximated by `Char.ofNat`'s
  default `U+0000`, since a Lean `Char` holds a scalar value).
* The imperative `while` loops of the source are modelled either by
  structural recursion on the scanned list or by fuel-indexed recursion in
  which the fuel bound is part of what is proved (the tree builder's main
  loop advances its cursor on every iteration, so `length + 1` units of
  fuel always suffice; that fact is exactly the termination claim).
* Mutation of the DOM tree under construction is modelled by an explicit
  open-element stack whose entries accumulate their children and are folded
  into their parent when closed, which yields the same final tree as the
  source's append-then-mutate-by-reference discipline, because while an
  element is open every append goes to it or deeper.
* The object maps used as lookup tables (`VOID_ELEMENTS`, `RAWTEXT_ELEMENTS`,
  `ENTITY_MAP`) are modelled as finite lists of keys.
* Parent pointers are modelled by carrying, next to each element reached by
  a traversal, the list of its element ancestors (nearest first), which is
  how `parentElement` chains are observable on trees the builder produces.
-/

namespace SimpleHTMLParser

/-! ## JavaScript character and string primitives -/

/-- Character read `html.charCodeAt(i)`, with an arbitrary default out of
range (the source only reads in range, every access being guarded). -/
def charAt (l : List Char) (i : Nat) : Char :=
  l.getD i (Char.ofNat 0)

/-- Slice `html.slice(a, b)` for `0 ≤ a ≤ b` (the only shape the source uses). -/
def sliceL (l : List Char) (a b : Nat) : List Char :=
  (l.take b).drop a

/-- The parser's `isWhitespace`: any code unit at most 32 (source line 845). -/
def isWsC (c : Char) : Bool :=
  c.toNat ≤ 32

/-- ASCII lowercasing, as `String.prototype.toLowerCase` acts on the ASCII
range (all tag and attribute names of interest are ASCII). -/
def jsLower (c : Char) : Char :=
  if 65 ≤ c.toNat ∧ c.toNat ≤ 90 then Char.ofNat (c.toNat + 32) else c

def jsLowerL (l : List Char) : List Char :=
  l.map jsLower

def jsLowerS (s : String) : String :=
  String.mk (jsLowerL s.toList)

/-- The character set removed by `String.prototype.trim` and matched by the
regular-expression class `\s`: ECMAScript WhiteSpace and LineTerminator. -/
def isJsSpace (c : Char) : Bool :=
  let n := c.toNat
  (9 ≤ n ∧ n ≤ 13) ∨ n = 32 ∨ n = 160 ∨ n = 65279 ∨ n = 5760 ∨
    (8192 ≤ n ∧ n ≤ 8202) ∨ n = 8232 ∨ n = 8233 ∨ n = 8239 ∨ n = 8287 ∨ n = 12288

/-- JavaScript `String.prototype.trim`. -/
def jsTrim (l : List Char) : List Char :=
  ((l.dropWhile isJsSpace).reverse.dropWhile isJsSpace).reverse

/-- Index just past the run of characters satisfying `p` that starts at
position `j` (the source's repeated `while (j < len && P(charCodeAt(j))) j++`
idiom). -/
def runFrom (l : List Char) (p : Char → Bool) (j : Nat) : Nat :=
  j + ((l.drop j).takeWhile p).length

/-- First index `k` with `pat` occurring at `k` in `s` (leftmost match),
the heart of `String.prototype.indexOf`. -/
def findSub (pat : List Char) : List Char → Option Nat
  | [] => if pat.isEmpty then some 0 else none
  | c :: rest =>
      if pat.isPrefixOf (c :: rest) then some 0
      else (findSub pat rest).map (· + 1)

/-- JavaScript `html.indexOf(pat, from)` (`none` for `-1`). -/
def indexOfFrom (l : List Char) (pat : List Char) (start : Nat) : Option Nat :=
  (findSub pat (l.drop start)).map (· + start)

/-- JavaScript `String.fromCharCode`: the argument is reduced modulo 2^16
(ToUint16); a resulting surrogate code unit is approximated by `U+0000`. -/
def jsFromCharCode (n : Nat) : Char :=
  Char.ofNat (n % 65536)

/-! ## Entity decoding (source lines 37-44 and 857-873) -/

/-- The fixed named-entity table `ENTITY_MAP`; `nbsp` maps to a plain
space `U+0020` in the source. -/
def ENTITY_MAP : List (String × String) :=
  [("amp", "&"), ("lt", "<"), ("gt", ">"),
   ("quot", String.mk [Char.ofNat 34]), ("apos", String.mk [Char.ofNat 39]),
   ("nbsp", " ")]

def isDecDigit (c : Char) : Bool :=
  48 ≤ c.toNat ∧ c.toNat ≤ 57

def isHexDigit (c : Char) : Bool :=
  (48 ≤ c.toNat ∧ c.toNat ≤ 57) ∨ (97 ≤ c.toNat ∧ c.toNat ≤ 102) ∨
    (65 ≤ c.toNat ∧ c.toNat ≤ 70)

def isAsciiAlpha (c : Char) : Bool :=
  (97 ≤ c.toNat ∧ c.toNat ≤ 122) ∨ (65 ≤ c.toNat ∧ c.toNat ≤ 90)

def hexDigitVal (c : Char) : Nat :=
  if 48 ≤ c.toNat ∧ c.toNat ≤ 57 then c.toNat - 48
  else if 97 ≤ c.toNat ∧ c.toNat ≤ 102 then c.toNat - 87
  else if 65 ≤ c.toNat ∧ c.toNat ≤ 70 then c.toNat - 55
  else 0

/-- Value of a digit string in the given radix. -/
def digitsVal (radix : Nat) (l : List Char) : Nat :=
  l.foldl (fun acc c => acc * radix + hexDigitVal c) 0

/-- JavaScript `parseInt(s, radix)` restricted to the strings the decoder
feeds it (no sign, no blanks, radix 10 or 16): the longest leading run of
digits valid for the radix is parsed; `none` models `NaN`. Exact only below
2 ^ 53, the bound under which JavaScript numbers hold integers exactly. -/
def parseIntJs (radix : Nat) (l : List Char) : Option Nat :=
  let dig : Char → Bool := if radix = 16 then isHexDigit else isDecDigit
  let run := l.takeWhile dig
  if run.isEmpty then none else some (digitsVal radix run)

/-- Shared body of the numeric-reference alternative, after the optional
`x` has been recognised: a maximal hexadecimal-character run must follow
immediately (the regular expression's backtracking collapses to: the run
must be followed immediately by `;`), and its payload goes to `parseInt`
with the chosen radix. -/
def tryNumericBody (hex : Bool) (r2 : List Char) : Option (List Char × List Char) :=
  let run := r2.takeWhile isHexDigit
  let after := r2.drop run.length
  if run.isEmpty then none
  else
    match after with
    | ';' :: r3 =>
      match parseIntJs (if hex then 16 else 10) run with
      | some n => some ([jsFromCharCode n], r3)
      | none =>
        some ('&' :: '#' :: (if hex then 'x' :: run else run) ++ [';'], r3)
    | _ => none

/-- Numeric-reference alternative `#x?[0-9a-fA-F]+` followed by `;`, given
the characters after `&#`. -/
def tryNumeric (r1 : List Char) : Option (List Char × List Char) :=
  if charAt r1 0 = 'x' then tryNumericBody true r1.tail else tryNumericBody false r1

/-- Named-entity alternative `[a-zA-Z]+` followed by `;`. -/
def tryNamed (rest : List Char) : Option (List Char × List Char) :=
  let run := rest.takeWhile isAsciiAlpha
  let after := rest.drop run.length
  if run.isEmpty then none
  else
    match after with
    | ';' :: r3 =>
      match ENTITY_MAP.lookup (String.mk run) with
      | some v => some (v.toList, r3)
      | none => some ('&' :: run ++ [';'], r3)
    | _ => none

/-- Attempted match of the replacement pattern `&(#x?[0-9a-fA-F]+|[a-zA-Z]+);`
just after a `&`, returning the replacement text and the input remaining
after the matched region (`none` when the pattern does not match here). -/
def tryEntity (rest : List Char) : Option (List Char × List Char) :=
  match rest with
  | c :: r1 => if c = '#' then tryNumeric r1 else tryNamed (c :: r1)
  | [] => none

/-- Scanner realising the global regular-expression replacement of
`decodeEntities`: at each `&` the pattern is tried; on a match its
replacement is emitted and scanning resumes after the matched region. -/
def decodeLoop : Nat → List Char → List Char
  | _, [] => []
  | 0, l => l
  | fuel+1, c :: rest =>
    if c = '&' then
      match tryEntity rest with
      | some (rep, rest2) => rep ++ decodeLoop fuel rest2
      | none => '&' :: decodeLoop fuel rest
    else c :: decodeLoop fuel rest

/-- `decodeEntities` (source lines 857-873).  Every scanner step consumes at
least one input character, so `length` fuel always suffices. -/
def decodeEntitiesL (l : List Char) : List Char :=
  if l.contains '&' then decodeLoop l.length l else l

def decodeEntities (s : String) : String :=
  String.mk (decodeEntitiesL s.toList)

/-! ## Node model (source lines 46-233) -/

/-- A tree node: `Text` holds decoded character data; `Element` holds a
lower-cased tag name, an attribute map (lower-cased unique keys in
insertion order, mirroring a JavaScript object) and ordered children.
The `Document` root is a separate structure below. -/
inductive Node where
  | text (data : String)
  | element (tagName : String) (attributes : List (String × String)) (children : List Node)

structure Document where
  children : List Node

mutual

def nodeBeq : Node → Node → Bool
  | .text d1, .text d2 => d1 = d2
  | .element t1 a1 c1, .element t2 a2 c2 => t1 = t2 && a1 = a2 && nodesBeq c1 c2
  | _, _ => false

def nodesBeq : List Node → List Node → Bool
  | [], [] => true
  | n :: ns, m :: ms => nodeBeq n m && nodesBeq ns ms
  | _, _ => false

end

mutual

theorem nodeBeq_iff : ∀ a b : Node, nodeBeq a b = true ↔ a = b
  | .text d1, .text d2 => by simp [nodeBeq]
  | .text d1, .element t2 a2 c2 => by simp [nodeBeq]
  | .element t1 a1 c1, .text d2 => by simp [nodeBeq]
  | .element t1 a1 c1, .element t2 a2 c2 => by
      simp [nodeBeq, nodesBeq_iff c1 c2, and_assoc]

theorem nodesBeq_iff : ∀ as bs : List Node, nodesBeq as bs = true ↔ as = bs
  | [], [] => by simp [nodesBeq]
  | [], m :: ms => by simp [nodesBeq]
  | n :: ns, [] => by simp [nodesBeq]
  | n :: ns, m :: ms => by
      simp [nodesBeq, nodeBeq_iff n m, nodesBeq_iff ns ms]

end

instance : DecidableEq Node := fun a b => decidable_of_iff _ (nodeBeq_iff a b)

instance : DecidableEq Document := fun a b =>
  decidable_of_iff (a.children = b.children)
    (by cases a; cases b; simp)

mutual

/-- Number of nodes of a subtree (used as a fuel bound for the iterative
traversals of the source). -/
def nodeCount : Node → Nat
  | .text _ => 1
  | .element _ _ cs => 1 + nodesCount cs

def nodesCount : List Node → Nat
  | [] => 0
  | n :: ns => nodeCount n + nodesCount ns

end

/-- `element.tagName` (`""` for the impossible non-element case). -/
def tagOf : Node → String
  | .element t _ _ => t
  | .text _ => ""

def childrenOf : Node → List Node
  | .element _ _ cs => cs
  | .text _ => []

/-- JavaScript object write `attrs[name] = value`: an existing key is
updated in place, a new key is appended (insertion order preserved). -/
def attrsSet (attrs : List (String × String)) (name value : String) : List (String × String) :=
  match attrs with
  | [] => [(name, value)]
  | (k, v) :: rest =>
      if k = name then (k, value) :: rest else (k, v) :: attrsSet rest name value

/-- `Element.getAttribute` (source lines 115-120): case-insensitive key. -/
def getAttr (n : Node) (name : String) : Option String :=
  match n with
  | .element _ attrs _ => attrs.lookup (jsLowerS name)
  | .text _ => none

def hasAttr (n : Node) (name : String) : Bool :=
  (getAttr n name).isSome

/-- `Element.id` (source lines 145-147): `getAttribute("id") || ""`. -/
def elemId (n : Node) : String :=
  match getAttr n ("id") with
  | some v => v
  | none => ""

def elemClassName (n : Node) : String :=
  match getAttr n ("class") with
  | some v => v
  | none => ""

theorem lenTakeWhileLe (p : α → Bool) : ∀ l : List α, (l.takeWhile p).length ≤ l.length
  | [] => Nat.le_refl _
  | a :: l => by
      simp only [List.takeWhile]
      cases p a
      · simp
      · simpa using Nat.succ_le_succ (lenTakeWhileLe p l)

theorem lenDropWhileLe (p : α → Bool) : ∀ l : List α, (l.dropWhile p).length ≤ l.length
  | [] => Nat.le_refl _
  | a :: l => by
      simp only [List.dropWhile]
      cases p a
      · simp
      · simpa using Nat.le_succ_of_le (lenDropWhileLe p l)

theorem dropWhileHeadNot (p : α → Bool) :
    ∀ l : List α, ∀ c rest, l.dropWhile p = c :: rest → p c = false
  | [], c, rest => by simp [List.dropWhile]
  | a :: l, c, rest => by
      simp only [List.dropWhile]
      cases h : p a
      · intro he
        cases he
        exact h
      · exact dropWhileHeadNot p l c rest

/-- `splitClassList`'s splitting regular expression: break a list into the
maximal runs of non-`\s` characters.  Every emitted word is nonempty, so
`length + 1` fuel always suffices. -/
def splitWsRuns : Nat → List Char → List String
  | 0, _ => []
  | fuel+1, l =>
    match l.dropWhile isJsSpace with
    | [] => []
    | c :: rest =>
        let w := (c :: rest).takeWhile (fun c => !isJsSpace c)
        String.mk w :: splitWsRuns fuel ((c :: rest).drop w.length)

/-- `splitClassList` (source lines 849-855): trim, then split on runs of
`\s` characters. -/
def splitClassList (value : String) : List String :=
  let t := jsTrim value.toList
  splitWsRuns (t.length + 1) t

def classListOf (n : Node) : List String :=
  splitClassList (elemClassName n)

/-- The iterative `textContent` accumulation loop (source lines 61-80):
pop a node; a `Text` contributes its data; an element pushes its children
so the first child is processed next. -/
def textLoop : Nat → List Node → String
  | _, [] => ""
  | 0, _ => ""
  | fuel+1, n :: rest =>
    match n with
    | .text d => d ++ textLoop fuel rest
    | .element _ _ cs => textLoop fuel (cs ++ rest)

/-- `NodeBase.textContent`, with `TextNode`'s override returning its own
data (source lines 95-97). -/
def Node.textContent : Node → String
  | .text d => d
  | .element _ _ cs => textLoop (nodesCount cs) cs

def Document.textContent (d : Document) : String :=
  textLoop (nodesCount d.children) d.children

/-! ## Tokenizer and tree builder (source lines 241-420) -/

/-- `VOID_ELEMENTS` (source lines 14-29). -/
def VOID_ELEMENTS : List String :=
  ["area", "base", "br", "col", "embed", "hr", "img", "input",
   "link", "meta", "param", "source", "track", "wbr"]

/-- `RAWTEXT_ELEMENTS` (source lines 31-35). -/
def RAWTEXT_ELEMENTS : List String :=
  ["script", "style", "textarea"]

/-- One still-open container element of the builder stack with the children
it has accumulated so far. -/
structure OpenElem where
  tagName : String
  attributes : List (String × String)
  children : List Node
deriving DecidableEq

/-- Builder state: cursor, open-element stack (top first, the `Document`
root kept separately as `docChildren`). -/
structure PState where
  i : Nat
  stk : List OpenElem
  docChildren : List Node
deriving DecidableEq

/-- `parent.appendChild(node)` on the node currently on top of the stack. -/
def appendNode (st : PState) (n : Node) : PState :=
  match st.stk with
  | [] => { st with docChildren := st.docChildren ++ [n] }
  | e :: rest => { st with stk := { e with children := e.children ++ [n] } :: rest }

/-- Closing the topmost open element: it becomes a completed `Element`
appended to its parent (this is where the source's creation-time
`appendChild` is realised, the parent's child list being unchanged in
between, since all intermediate appends went to the open element itself). -/
def closeTop (st : PState) : PState :=
  match st.stk with
  | [] => st
  | e :: rest =>
      appendNode { st with stk := rest } (Node.element e.tagName e.attributes e.children)

def closeN : Nat → PState → PState
  | 0, st => st
  | n+1, st => closeN n (closeTop st)

/-- The downward scan of the stack for the nearest element with the given
tag name (source lines 271-280); position counted from the top. -/
def scanForTag : List OpenElem → String → Option Nat
  | [], _ => none
  | e :: rest, name =>
      if e.tagName = name then some 0 else (scanForTag rest name).map (· + 1)

/-- End-tag handling (source lines 261-284): scan the stack from the top,
excluding the root, for the nearest element with the given (already
lower-cased) tag name; truncate through it, or leave the stack unchanged.
An empty name never scans. -/
def handleEndTag (st : PState) (name : String) : PState :=
  if name = "" then st
  else
    match scanForTag st.stk name with
    | some k => closeN (k+1) st
    | none => st

/-- The attribute loop of a start tag (source lines 304-374), fuel-indexed;
every iteration advances `j`, so `length + 1` fuel suffices and the
exhaustion default is unreachable from the builder.  Returns the attribute
map, the self-closing flag and the cursor after the consumed `>`. -/
def scanAttrs (l : List Char) : Nat → Nat → List (String × String) → Bool →
    List (String × String) × Bool × Nat
  | 0, j, attrs, sc => (attrs, sc, j)
  | fuel+1, j, attrs, sc =>
    if j < l.length then
      let c := charAt l j
      if isWsC c then scanAttrs l fuel (j+1) attrs sc
      else if c = '/' then
        let j2 := runFrom l isWsC (j+1)
        if j2 < l.length ∧ charAt l j2 = '>' then (attrs, true, j2+1)
        else scanAttrs l fuel j2 attrs true
      else if c = '>' then (attrs, sc, j+1)
      else
        let nameEnd := runFrom l (fun c => !(isWsC c ∨ c = '=' ∨ c = '/' ∨ c = '>')) j
        let name := jsLowerS (String.mk (sliceL l j nameEnd))
        let j3 := runFrom l isWsC nameEnd
        let vj : List Char × Nat :=
          if j3 < l.length ∧ charAt l j3 = '=' then
            let j4 := runFrom l isWsC (j3+1)
            if j4 < l.length ∧ (charAt l j4 = Char.ofNat 34 ∨ charAt l j4 = Char.ofNat 39) then
              let q := charAt l j4
              let vEnd := runFrom l (fun c => c ≠ q) (j4+1)
              (sliceL l (j4+1) vEnd,
               if vEnd < l.length ∧ charAt l vEnd = q then vEnd+1 else vEnd)
            else
              let vEnd := runFrom l (fun c => !(isWsC c ∨ c = '/' ∨ c = '>')) j4
              (sliceL l j4 vEnd, vEnd)
          else ([], j3)
        let attrs2 :=
          if name = "" then attrs
          else attrsSet attrs name (String.mk (decodeEntitiesL vj.1))
        scanAttrs l fuel vj.2 attrs2 sc
    else (attrs, sc, j)

/-- The end tag `"</" + tagName + ">"` searched for by the raw-text branch. -/
def closeTagOf (tagName : String) : List Char :=
  '<' :: '/' :: tagName.toList ++ ['>']

/-- Raw-text capture (source lines 381-397): search the lower-cased input
from `j` for `</name>`; the slice up to the match (or to the end) is the
literal text, the cursor moving past the consumed end tag (or to the end). -/
def rawTextCapture (l : List Char) (tagName : String) (j : Nat) : List Char × Nat :=
  match indexOfFrom (jsLowerL l) (closeTagOf tagName) j with
  | none => (sliceL l j l.length, l.length)
  | some ci => (sliceL l j ci, ci + (closeTagOf tagName).length)

/-- `new Element(tagName, attrs)`: the constructor lower-cases the tag. -/
def mkOpenElem (tagName : String) (attrs : List (String × String)) : OpenElem :=
  ⟨jsLowerS tagName, attrs, []⟩

/-- Element dispatch after a start tag is scanned (source lines 376-403):
append (for void, self-closing and raw-text names) or push; raw-text names
capture their literal body as a single text child. -/
def applyStartTag (l : List Char) (st : PState) (tagName : String)
    (attrs : List (String × String)) (selfClosing : Bool) (j : Nat) : PState :=
  let e := mkOpenElem tagName attrs
  if !selfClosing && !(VOID_ELEMENTS.contains e.tagName) then
    if RAWTEXT_ELEMENTS.contains e.tagName then
      let rc := rawTextCapture l e.tagName j
      let cs := if rc.1.isEmpty then [] else [Node.text (String.mk rc.1)]
      { appendNode st (Node.element e.tagName e.attributes cs) with i := rc.2 }
    else
      { st with stk := e :: st.stk, i := j }
  else
    { appendNode st (Node.element e.tagName e.attributes []) with i := j }

/-- Outcome of one iteration of the builder loop: continue, or break out
of the loop (the unterminated end tag of source line 264). -/
inductive StepRes where
  | cont (st : PState)
  | halt (st : PState)

def StepRes.state : StepRes → PState
  | .cont st => st
  | .halt st => st

/-- One iteration of the main builder loop (source lines 248-417), for a
cursor in range. -/
def parseStep (l : List Char) (st : PState) : StepRes :=
  let i := st.i
  let len := l.length
  if charAt l i = '<' then
    if i + 3 < len ∧ sliceL l i (i+4) = ('<' :: '!' :: '-' :: '-' :: []) then
      match indexOfFrom l ('-' :: '-' :: '>' :: []) (i+4) with
      | none => .cont { st with i := len }
      | some e => .cont { st with i := e + 3 }
    else if i + 1 < len ∧ charAt l (i+1) = '!' then
      match indexOfFrom l ['>'] (i+2) with
      | none => .cont { st with i := len }
      | some e => .cont { st with i := e + 1 }
    else if i + 1 < len ∧ charAt l (i+1) = '/' then
      match indexOfFrom l ['>'] (i+2) with
      | none => .halt st
      | some e =>
        let tagName := jsLowerS (String.mk (jsTrim (sliceL l (i+2) e)))
        .cont { handleEndTag st tagName with i := e + 1 }
    else
      let j := runFrom l (fun c => !(isWsC c ∨ c = '/' ∨ c = '>')) (i+1)
      if j = i + 1 then .cont { st with i := i + 1 }
      else
        let tagName := jsLowerS (String.mk (sliceL l (i+1) j))
        let asc := scanAttrs l (l.length + 1) j [] false
        .cont (applyStartTag l st tagName asc.1 asc.2.1 asc.2.2)
  else
    let e := match indexOfFrom l ['<'] i with
      | none => len
      | some n => n
    let raw := sliceL l i e
    let st2 :=
      if !raw.isEmpty then
        let t := decodeEntitiesL raw
        if !t.isEmpty then appendNode st (Node.text (String.mk t)) else st
      else st
    .cont { st2 with i := e }

/-- The fuel-indexed main loop; `none` models fuel exhaustion and is shown
unreachable for fuel `length + 1` (claim C1). -/
def parseLoop (l : List Char) : Nat → PState → Option PState
  | 0, _ => none
  | fuel+1, st =>
    if st.i < l.length then
      match parseStep l st with
      | .cont st2 => parseLoop l fuel st2
      | .halt st2 => some st2
    else some st

/-- Still-open elements at the end of input remain attached where they were
appended: fold the whole stack into the document. -/
def flushState (st : PState) : Document :=
  ⟨(closeN st.stk.length st).docChildren⟩

/-- `parse(html)` (source lines 241-420). -/
def parse (html : String) : Option Document :=
  let l := html.toList
  (parseLoop l (l.length + 1) ⟨0, [], []⟩).map flushState

/-- Total wrapper: the `Option` never fires (claim C1). -/
def parseD (html : String) : Document :=
  (parse html).getD ⟨[]⟩

/-! ## Selector compiler (source lines 422-429 and 636-843) -/

inductive Combinator where
  | descendant
  | child
deriving DecidableEq

structure SelectorAttr where
  name : String
  value : Option String
deriving DecidableEq

structure SelectorPart where
  tag : Option String := none
  id : Option String := none
  classes : List String := []
  attrs : List SelectorAttr := []
deriving DecidableEq

structure SelectorStep where
  combinator : Combinator
  part : SelectorPart
deriving DecidableEq

/-- `isIdentifierChar` (source lines 834-843). -/
def isIdentChar (c : Char) : Bool :=
  (48 ≤ c.toNat ∧ c.toNat ≤ 57) ∨ (65 ≤ c.toNat ∧ c.toNat ≤ 90) ∨
    (97 ≤ c.toNat ∧ c.toNat ≤ 122) ∨ c.toNat = 45 ∨ c.toNat = 95 ∨ c.toNat = 58

/-- `readIdentifier` (source lines 823-832). -/
def readIdentifier (l : List Char) (start : Nat) : String × Nat :=
  let run := (l.drop start).takeWhile isIdentChar
  (String.mk run, start + run.length)

/-- `readAttributeSelector` (source lines 765-821). -/
def readAttributeSelector (l : List Char) (start : Nat) : SelectorAttr × Nat :=
  let i1 := runFrom l isWsC (start+1)
  let nd := readIdentifier l i1
  let name := jsLowerS nd.1
  let i2 := runFrom l isWsC nd.2
  let vp : Option String × Nat :=
    if i2 < l.length ∧ charAt l i2 = '=' then
      let i3 := runFrom l isWsC (i2+1)
      if i3 < l.length ∧ (charAt l i3 = Char.ofNat 34 ∨ charAt l i3 = Char.ofNat 39) then
        let q := charAt l i3
        let vEnd := runFrom l (fun c => c ≠ q) (i3+1)
        (some (String.mk (sliceL l (i3+1) vEnd)),
         if vEnd < l.length ∧ charAt l vEnd = q then vEnd+1 else vEnd)
      else
        let vEnd := runFrom l (fun c => !(isWsC c ∨ c = ']')) i3
        (some (String.mk (sliceL l i3 vEnd)), vEnd)
    else (none, i2)
  let i4 := runFrom l isWsC vp.2
  let i5 := if i4 < l.length ∧ charAt l i4 = ']' then i4 + 1 else i4
  (⟨name, vp.1⟩, i5)

/-- The loop of `parseSimpleSelector` (source lines 710-763), fuel-indexed;
every iteration advances the cursor, so `length + 1` fuel suffices. -/
def parseSimpleLoop (l : List Char) : Nat → Nat → SelectorPart → SelectorPart × Nat
  | 0, i, part => (part, i)
  | fuel+1, i, part =>
    if i < l.length then
      let c := charAt l i
      if isWsC c ∨ c = '>' ∨ c = ',' then (part, i)
      else if c = '#' then
        let r := readIdentifier l (i+1)
        parseSimpleLoop l fuel r.2 (if r.1 ≠ "" then { part with id := some r.1 } else part)
      else if c = '.' then
        let r := readIdentifier l (i+1)
        parseSimpleLoop l fuel r.2
          (if r.1 ≠ "" then { part with classes := part.classes ++ [r.1] } else part)
      else if c = '[' then
        let r := readAttributeSelector l i
        parseSimpleLoop l fuel r.2
          (if r.1.name ≠ "" then { part with attrs := part.attrs ++ [r.1] } else part)
      else if c = '*' then
        parseSimpleLoop l fuel (i+1) { part with tag := some ("*") }
      else
        let r := readIdentifier l i
        if r.1 ≠ "" then
          parseSimpleLoop l fuel r.2
            (if part.tag.isNone then { part with tag := some (jsLowerS r.1) } else part)
        else parseSimpleLoop l fuel (i+1) part
    else (part, i)

def parseSimpleSelector (l : List Char) (start : Nat) : SelectorPart × Nat :=
  parseSimpleLoop l (l.length + 1) start {}

/-- The loop of `parseSelectorGroup` (source lines 686-708).  `none` models
fuel exhaustion; a cursor resting on a top-level comma never advances (the
source loop then runs forever), so for such inputs every fuel amount yields
`none`; on every other input `length + 1` fuel returns `some`. -/
def parseGroupLoop (l : List Char) : Nat → Nat → Combinator → List SelectorStep →
    Option (List SelectorStep)
  | 0, _, _, _ => none
  | fuel+1, i, comb, acc =>
    let i1 := runFrom l isWsC i
    if i1 < l.length then
      if charAt l i1 = '>' then parseGroupLoop l fuel (i1+1) .child acc
      else
        let r := parseSimpleSelector l i1
        parseGroupLoop l fuel r.2 .descendant (acc ++ [⟨comb, r.1⟩])
    else some acc

def parseSelectorGroup (l : List Char) : Option (List SelectorStep) :=
  parseGroupLoop l (l.length + 1) 0 .descendant []

/-- `splitSelectorGroups` (source lines 652-684): split on top-level commas,
ignoring commas inside brackets or quotes. -/
def splitGroupsLoop : List Char → List Char → Nat → Nat → List (List Char)
  | [], cur, _, _ => [cur.reverse]
  | c :: rest, cur, depth, quote =>
    if quote ≠ 0 then
      if c.toNat = quote then splitGroupsLoop rest (c :: cur) depth 0
      else splitGroupsLoop rest (c :: cur) depth quote
    else if c.toNat = 34 ∨ c.toNat = 39 then splitGroupsLoop rest (c :: cur) depth c.toNat
    else if c = '[' then splitGroupsLoop rest (c :: cur) (depth+1) quote
    else if c = ']' ∧ depth ≠ 0 then splitGroupsLoop rest (c :: cur) (depth-1) quote
    else if c = ',' ∧ depth = 0 then cur.reverse :: splitGroupsLoop rest [] depth quote
    else splitGroupsLoop rest (c :: cur) depth quote

def splitSelectorGroups (l : List Char) : List (List Char) :=
  splitGroupsLoop l [] 0 0

/-- `parseSelectorList` (source lines 636-650): trim each group, skip empty
ones, compile the rest, keep those with at least one step. -/
def collectGroups : List (List Char) → Option (List (List SelectorStep))
  | [] => some []
  | g :: gs =>
    let t := jsTrim g
    if t.isEmpty then collectGroups gs
    else
      match parseSelectorGroup t with
      | none => none
      | some steps =>
        (collectGroups gs).map (fun rest => if steps.isEmpty then rest else steps :: rest)

def parseSelectorList (s : String) : Option (List (List SelectorStep)) :=
  collectGroups (splitSelectorGroups s.toList)

/-! ## Selector matcher (source lines 558-634) -/

/-- `matchesSelectorPart` (source lines 604-634), with the source's
truthiness guards on the tag and id constraints made explicit. -/
def matchesSelectorPart (el : Node) (part : SelectorPart) : Bool :=
  (match part.tag with
   | some t => !(t ≠ "" ∧ t ≠ "*" ∧ tagOf el ≠ t)
   | none => true) &&
  (match part.id with
   | some s => !(s ≠ "" ∧ elemId el ≠ s)
   | none => true) &&
  part.classes.all (fun c => (classListOf el).contains c) &&
  part.attrs.all (fun a =>
    hasAttr el a.name &&
    (match a.value with
     | none => true
     | some v => getAttr el a.name = some v))

/-- The upward scan of the descendant combinator (source lines 591-594):
the nearest ancestor satisfying the part, with its own ancestors. -/
def findAncestor : List Node → SelectorPart → Option (Node × List Node)
  | [], _ => none
  | p :: rest, part =>
      if matchesSelectorPart p part then some (p, rest) else findAncestor rest part

/-- The right-to-left walk of `matchesSelectorChain` (source lines 575-601),
on the reversed step list; the head step's part has already been checked
for the current element, its combinator links it to the next step left. -/
def chainLoopR : Node → List Node → List SelectorStep → Bool
  | _, _, [] => true
  | _, _, [_] => true
  | _, anc, s :: target :: rrest =>
    match s.combinator with
    | .child =>
      match anc with
      | [] => false
      | p :: panc =>
          matchesSelectorPart p target.part && chainLoopR p panc (target :: rrest)
    | .descendant =>
      match findAncestor anc target.part with
      | none => false
      | some pr => chainLoopR pr.1 pr.2 (target :: rrest)

/-- `matchesSelectorChain` (source lines 568-602): an empty chain never
matches; otherwise the rightmost part must match the element itself, then
the walk proceeds leftward. -/
def matchesSelectorChain (el : Node) (anc : List Node) (steps : List SelectorStep) : Bool :=
  match steps.reverse with
  | [] => false
  | s :: rrest => matchesSelectorPart el s.part && chainLoopR el anc (s :: rrest)

def matchesAnyGroup (groups : List (List SelectorStep)) (el : Node) (anc : List Node) : Bool :=
  groups.any (fun g => matchesSelectorChain el anc g)

/-! ## Document-order traversal (source lines 431-467 and 875-905) -/

/-- Fuel bound for the traversal stack: total node count. -/
def countCtx : List (Node × List Node) → Nat
  | [] => 0
  | p :: rest => nodeCount p.1 + countCtx rest

/-- `walkElements` driving `querySelectorAll` (source lines 450-467): visit
elements in pre-order, collect every one matching some group, never stop. -/
def qsaLoop (groups : List (List SelectorStep)) : Nat → List (Node × List Node) → List Node
  | _, [] => []
  | 0, _ => []
  | fuel+1, (n, anc) :: rest =>
    match n with
    | .element t a cs =>
        let el := Node.element t a cs
        (if matchesAnyGroup groups el anc then [el] else []) ++
          qsaLoop groups fuel (cs.map (fun c => (c, el :: anc)) ++ rest)
    | .text _ => qsaLoop groups fuel rest

/-- `walkElements` driving `querySelectorOne` (source lines 431-448): stop
at the first element matching some group. -/
def qsOneLoop (groups : List (List SelectorStep)) : Nat → List (Node × List Node) → Option Node
  | _, [] => none
  | 0, _ => none
  | fuel+1, (n, anc) :: rest =>
    match n with
    | .element t a cs =>
        let el := Node.element t a cs
        if matchesAnyGroup groups el anc then some el
        else qsOneLoop groups fuel (cs.map (fun c => (c, el :: anc)) ++ rest)
    | .text _ => qsOneLoop groups fuel rest

def ctxChildren (cs : List Node) (anc : List Node) : List (Node × List Node) :=
  cs.map (fun c => (c, anc))

/-- `Document.querySelectorAll` (source lines 210-212); `none` models the
compiler hanging (see `parseGroupLoop`). -/
def docQuerySelectorAll (d : Document) (sel : String) : Option (List Node) :=
  (parseSelectorList sel).map (fun gs =>
    let stack := ctxChildren d.children []
    qsaLoop gs (countCtx stack) stack)

/-- `Document.querySelector` (source lines 206-208). -/
def docQuerySelector (d : Document) (sel : String) : Option (Option Node) :=
  (parseSelectorList sel).map (fun gs =>
    let stack := ctxChildren d.children []
    qsOneLoop gs (countCtx stack) stack)

/-- `Element.querySelectorAll`, scoped to the subtree of an element whose
element ancestors (nearest first) are `anc`. -/
def elQuerySelectorAll (el : Node) (anc : List Node) (sel : String) : Option (List Node) :=
  (parseSelectorList sel).map (fun gs =>
    let stack := ctxChildren (childrenOf el) (el :: anc)
    qsaLoop gs (countCtx stack) stack)

def elQuerySelector (el : Node) (anc : List Node) (sel : String) : Option (Option Node) :=
  (parseSelectorList sel).map (fun gs =>
    let stack := ctxChildren (childrenOf el) (el :: anc)
    qsOneLoop gs (countCtx stack) stack)

/-- `Document.getElementById` (source lines 222-224). -/
def docGetElementById (d : Document) (id : String) : Option (Option Node) :=
  docQuerySelector d ("#" ++ id)

/-! ## Declarative (specification-side) definitions -/

mutual

/-- Pre-order document-order list of the elements of a subtree, each paired
with its element ancestors (nearest first). -/
def preNode : Node → List Node → List (Node × List Node)
  | .text _, _ => []
  | .element t a cs, anc =>
      (Node.element t a cs, anc) :: preNodes cs (Node.element t a cs :: anc)

def preNodes : List Node → List Node → List (Node × List Node)
  | [], _ => []
  | n :: ns, anc => preNode n anc ++ preNodes ns anc

end

mutual

/-- Document-order list of the character data of every text node of a
subtree (depth-first, left-to-right, pre-order). -/
def textsNode : Node → List String
  | .text d => [d]
  | .element _ _ cs => textsNodes cs

def textsNodes : List Node → List String
  | [] => []
  | n :: ns => textsNode n ++ textsNodes ns

end

mutual

/-- Every element of the subtree whose tag name is in the void set has an
empty child list. -/
def nodeVoidOK : Node → Bool
  | .text _ => true
  | .element t _ cs => (!(VOID_ELEMENTS.contains t) || cs.isEmpty) && nodesVoidOK cs

def nodesVoidOK : List Node → Bool
  | [] => true
  | n :: ns => nodeVoidOK n && nodesVoidOK ns

end

def docVoidOK (d : Document) : Bool :=
  nodesVoidOK d.children

/-! ## Helper lemmas: searching and indexing -/

theorem charAt_head_drop : ∀ (l : List Char) (n : Nat), charAt l n = (l.drop n).getD 0 (Char.ofNat 0)
  | _, 0 => by simp [charAt]
  | [], _+1 => by simp [charAt]
  | _ :: l, n+1 => charAt_head_drop l n

theorem findSub_found : ∀ (s pat : List Char) (k : Nat),
    findSub pat s = some k → pat.isPrefixOf (s.drop k) = true
  | [], pat, k => by
      simp only [findSub]
      split_ifs with hp
      · intro h
        cases h
        simp only [List.drop_nil]
        cases pat with
        | nil => rfl
        | cons p ps => simp [List.isEmpty] at hp
      · intro h
        cases h
  | c :: rest, pat, k => by
      simp only [findSub]
      split_ifs with hp
      · intro h
        cases h
        simpa using hp
      · intro h
        simp only [Option.map_eq_some'] at h
        obtain ⟨k1, hk1, rfl⟩ := h
        simpa using findSub_found rest pat k1 hk1

theorem indexOfFrom_some_ge (l pat : List Char) (start e : Nat)
    (h : indexOfFrom l pat start = some e) : start ≤ e := by
  simp only [indexOfFrom, Option.map_eq_some'] at h
  obtain ⟨k, _, rfl⟩ := h
  omega

theorem indexOfFrom_some_found (l pat : List Char) (start e : Nat)
    (h : indexOfFrom l pat start = some e) : pat.isPrefixOf (l.drop e) = true := by
  simp only [indexOfFrom, Option.map_eq_some'] at h
  obtain ⟨k, hk, rfl⟩ := h
  have := findSub_found (l.drop start) pat k hk
  rwa [List.drop_drop, Nat.add_comm] at this

/-- Concatenation of a list of strings, in order. -/
def concatAll (l : List String) : String :=
  l.foldr (fun a b => a ++ b) ""

theorem nodeCount_pos : ∀ n : Node, 0 < nodeCount n
  | .text _ => by simp [nodeCount]
  | .element _ _ _ => by simp [nodeCount]

theorem nodesCount_append : ∀ a b : List Node, nodesCount (a ++ b) = nodesCount a + nodesCount b
  | [], b => by simp [nodesCount]
  | n :: a, b => by
      have ih := nodesCount_append a b
      show nodeCount n + nodesCount (a ++ b) = nodeCount n + nodesCount a + nodesCount b
      omega

theorem textsNodes_append : ∀ a b : List Node, textsNodes (a ++ b) = textsNodes a ++ textsNodes b
  | [], b => by simp [textsNodes]
  | n :: a, b => by
      simp [textsNodes, textsNodes_append a b]

theorem concatAll_append (a b : List String) :
    concatAll (a ++ b) = concatAll a ++ concatAll b := by
  induction a with
  | nil => simp [concatAll]
  | cons s a ih => simp [concatAll, List.foldr_cons] at ih ⊢; rw [ih, String.append_assoc]

theorem textLoop_spec : ∀ (fuel : Nat) (ns : List Node),
    nodesCount ns ≤ fuel → textLoop fuel ns = concatAll (textsNodes ns) := by
  intro fuel
  induction fuel with
  | zero =>
    intro ns h
    cases ns with
    | nil => rfl
    | cons n rest =>
      exfalso
      have := nodeCount_pos n
      simp [nodesCount] at h
      omega
  | succ f ih =>
    intro ns h
    cases ns with
    | nil => rfl
    | cons n rest =>
      cases n with
      | text d =>
        have hr : nodesCount rest ≤ f := by
          simp [nodesCount, nodeCount] at h
          omega
        simp [textLoop, textsNodes, textsNode, concatAll, ih rest hr]
      | element t a cs =>
        have hr : nodesCount (cs ++ rest) ≤ f := by
          rw [nodesCount_append]
          simp only [nodesCount, nodeCount] at h
          omega
        have h1 := ih (cs ++ rest) hr
        have h2 : textsNodes (cs ++ rest) = textsNodes (Node.element t a cs :: rest) := by
          rw [textsNodes_append]
          simp [textsNodes, textsNode]
        rw [show textLoop (f+1) (Node.element t a cs :: rest) = textLoop f (cs ++ rest) from rfl,
          h1, h2]

/-! ## Helper lemmas: the open-element stack -/

theorem runFrom_ge (l : List Char) (p : Char → Bool) (j : Nat) : j ≤ runFrom l p j :=
  Nat.le_add_right _ _

theorem appendNode_stk_tags (st : PState) (n : Node) :
    (appendNode st n).stk.map OpenElem.tagName = st.stk.map OpenElem.tagName := by
  cases h : st.stk with
  | nil => simp [appendNode, h]
  | cons e rest => simp [appendNode, h]

theorem appendNode_i (st : PState) (n : Node) : (appendNode st n).i = st.i := by
  cases h : st.stk with
  | nil => simp [appendNode, h]
  | cons e rest => simp [appendNode, h]

theorem closeTop_stk_tags (st : PState) :
    (closeTop st).stk.map OpenElem.tagName = (st.stk.map OpenElem.tagName).tail := by
  cases h : st.stk with
  | nil => simp [closeTop, h]
  | cons e rest =>
      simp only [closeTop, h]
      rw [show ({ st with stk := rest } : PState) = { st with stk := rest } from rfl]
      have := appendNode_stk_tags { st with stk := rest }
        (Node.element e.tagName e.attributes e.children)
      simp_all

theorem closeN_stk_tags (st : PState) : ∀ n : Nat,
    (closeN n st).stk.map OpenElem.tagName = (st.stk.map OpenElem.tagName).drop n := by
  intro n
  induction n generalizing st with
  | zero => simp [closeN]
  | succ m ih =>
      show (closeN m (closeTop st)).stk.map OpenElem.tagName = _
      rw [ih (closeTop st), closeTop_stk_tags]
      simp [List.drop_tail]

theorem scanForTag_of_least (name : String) :
    ∀ (stk : List OpenElem) (k : Nat) (e : OpenElem), stk[k]? = some e →
      e.tagName = name →
      (∀ m em, m < k → stk[m]? = some em → em.tagName ≠ name) →
      scanForTag stk name = some k
  | [], k, e => by simp
  | e0 :: rest, k, e => by
      intro hk he hleast
      cases k with
      | zero =>
        simp only [List.getElem?_cons_zero, Option.some_inj] at hk
        subst hk
        simp [scanForTag, he]
      | succ k1 =>
        have h0 : e0.tagName ≠ name := hleast 0 e0 (by omega) (by simp)
        simp only [List.getElem?_cons_succ] at hk
        have hrec := scanForTag_of_least name rest k1 e hk he
          (fun m em hm hme => hleast (m+1) em (by omega) (by simpa using hme))
        simp [scanForTag, h0, hrec]

theorem scanForTag_none (name : String) :
    ∀ stk : List OpenElem, (∀ e ∈ stk, e.tagName ≠ name) → scanForTag stk name = none
  | [] => by simp [scanForTag]
  | e0 :: rest => by
      intro h
      have h0 : e0.tagName ≠ name := h e0 (by simp)
      have hrec := scanForTag_none name rest (fun e he => h e (by simp [he]))
      simp [scanForTag, h0, hrec]

/-! ## Helper lemmas: the void-element invariant -/

theorem nodesVoidOK_append : ∀ a b : List Node,
    nodesVoidOK (a ++ b) = (nodesVoidOK a && nodesVoidOK b)
  | [], b => by simp [nodesVoidOK]
  | n :: a, b => by
      have ih := nodesVoidOK_append a b
      show (nodeVoidOK n && nodesVoidOK (a ++ b)) = _
      rw [ih]
      show _ = ((nodeVoidOK n && nodesVoidOK a) && nodesVoidOK b)
      rw [Bool.and_assoc]

/-- The invariant carried through the builder loop: all completed nodes are
void-clean and no open element has a void tag name. -/
def stVoidOK (st : PState) : Prop :=
  nodesVoidOK st.docChildren = true ∧
    ∀ e ∈ st.stk, VOID_ELEMENTS.contains e.tagName = false ∧ nodesVoidOK e.children = true

theorem appendNode_void (st : PState) (n : Node) (hst : stVoidOK st)
    (hn : nodeVoidOK n = true) : stVoidOK (appendNode st n) := by
  obtain ⟨hdoc, hstk⟩ := hst
  cases h : st.stk with
  | nil =>
      refine ⟨?_, ?_⟩
      · simp [appendNode, h, nodesVoidOK_append, hdoc, nodesVoidOK, hn]
      · intro e he
        simp [appendNode, h] at he
  | cons e0 rest =>
      refine ⟨?_, ?_⟩
      · simp [appendNode, h, hdoc]
      · intro e he
        simp only [appendNode, h] at he
        rcases List.mem_cons.mp he with rfl | hmem
        · obtain ⟨hc, hok⟩ := hstk e0 (by simp [h])
          exact ⟨hc, by simp [nodesVoidOK_append, hok, nodesVoidOK, hn]⟩
        · exact hstk e (by simp [h, hmem])

theorem closeTop_void (st : PState) (hst : stVoidOK st) : stVoidOK (closeTop st) := by
  cases h : st.stk with
  | nil => simpa [closeTop, h]
  | cons e0 rest =>
      obtain ⟨hdoc, hstk⟩ := hst
      obtain ⟨hc0, hok0⟩ := hstk e0 (by simp [h])
      have hbase : stVoidOK { st with stk := rest } :=
        ⟨hdoc, fun e he => hstk e (by simp [h, he])⟩
      have hnode : nodeVoidOK (Node.element e0.tagName e0.attributes e0.children) = true := by
        simp only [nodeVoidOK, Bool.and_eq_true]
        refine ⟨?_, hok0⟩
        rw [hc0]
        simp
      simpa [closeTop, h] using appendNode_void _ _ hbase hnode

theorem closeN_void : ∀ (n : Nat) (st : PState), stVoidOK st → stVoidOK (closeN n st)
  | 0, _, h => h
  | n+1, st, h => closeN_void n (closeTop st) (closeTop_void st h)

theorem handleEndTag_void (st : PState) (name : String) (hst : stVoidOK st) :
    stVoidOK (handleEndTag st name) := by
  unfold handleEndTag
  split_ifs with h1
  · exact hst
  · cases h : scanForTag st.stk name with
    | none => simpa [h]
    | some k => simpa [h] using closeN_void (k+1) st hst

theorem applyStartTag_void (l : List Char) (st : PState) (tagName : String)
    (attrs : List (String × String)) (sc : Bool) (j : Nat) (hst : stVoidOK st) :
    stVoidOK (applyStartTag l st tagName attrs sc j) := by
  unfold applyStartTag
  dsimp only
  split_ifs with h1 h2 h3
  · -- raw-text branch, empty captured text
    refine appendNode_void st _ hst ?_
    simp only [nodeVoidOK, Bool.and_eq_true]
    have hc : VOID_ELEMENTS.contains (mkOpenElem tagName attrs).tagName = false := by
      simp only [Bool.and_eq_true, Bool.not_eq_true'] at h1
      exact h1.2
    refine ⟨?_, by simp [nodesVoidOK]⟩
    rw [hc]
    simp
  · -- raw-text branch, single text child
    refine appendNode_void st _ hst ?_
    simp only [nodeVoidOK, Bool.and_eq_true]
    have hc : VOID_ELEMENTS.contains (mkOpenElem tagName attrs).tagName = false := by
      simp only [Bool.and_eq_true, Bool.not_eq_true'] at h1
      exact h1.2
    refine ⟨?_, by simp [nodesVoidOK, nodeVoidOK]⟩
    rw [hc]
    simp
  · -- push branch
    refine ⟨hst.1, ?_⟩
    intro e he
    dsimp only at he
    rcases List.mem_cons.mp he with rfl | hmem
    · simp only [Bool.and_eq_true, Bool.not_eq_true'] at h1
      exact ⟨h1.2, rfl⟩
    · exact hst.2 e hmem
  · -- void or self-closing branch
    refine appendNode_void st _ hst ?_
    simp [nodeVoidOK, nodesVoidOK]

theorem parseStep_void (l : List Char) (st : PState) (hst : stVoidOK st) :
    stVoidOK (parseStep l st).state := by
  unfold parseStep
  dsimp only
  split_ifs <;>
    (try split) <;>
    first
      | exact hst
      | exact applyStartTag_void l st _ _ _ _ hst
      | exact handleEndTag_void st _ hst
      | exact appendNode_void st _ hst rfl

theorem parseLoop_void (l : List Char) :
    ∀ (fuel : Nat) (st st2 : PState), parseLoop l fuel st = some st2 →
      stVoidOK st → stVoidOK st2 := by
  intro fuel
  induction fuel with
  | zero => intro st st2 h; cases h
  | succ f ih =>
      intro st st2 h hst
      rw [parseLoop] at h
      split_ifs at h with hc
      · cases hs : parseStep l st with
        | cont st3 =>
            rw [hs] at h
            have := parseStep_void l st hst
            rw [hs] at this
            exact ih st3 st2 h this
        | halt st3 =>
            rw [hs] at h
            cases h
            have := parseStep_void l st hst
            rwa [hs] at this
      · cases h
        exact hst

theorem flushState_void (st : PState) (hst : stVoidOK st) :
    docVoidOK (flushState st) = true :=
  (closeN_void st.stk.length st hst).1

/-! ## Helper lemmas: termination of the builder loop -/

theorem le_runFrom_of_le (l : List Char) (p : Char → Bool) {a j : Nat} (h : a ≤ j) :
    a ≤ runFrom l p j :=
  Nat.le_trans h (runFrom_ge l p j)

theorem scanAttrs_le (l : List Char) : ∀ (fuel j : Nat) (attrs : List (String × String))
    (sc : Bool), j ≤ (scanAttrs l fuel j attrs sc).2.2 := by
  intro fuel
  induction fuel with
  | zero => intro j attrs sc; exact Nat.le_refl _
  | succ f ih =>
    intro j attrs sc
    have step : ∀ x a s, j ≤ x → j ≤ (scanAttrs l f x a s).2.2 :=
      fun x a s h => Nat.le_trans h (ih x a s)
    unfold scanAttrs
    dsimp only
    split_ifs <;>
      first
        | (refine step _ _ _ ?_
           repeat first
             | exact Nat.le_refl _
             | apply Nat.le_succ_of_le
             | apply le_runFrom_of_le)
        | (repeat first
             | exact Nat.le_refl _
             | apply Nat.le_succ_of_le
             | apply le_runFrom_of_le)

theorem singleton_prefix_charAt (l : List Char) (n : Nat) (c : Char)
    (h : [c].isPrefixOf (l.drop n) = true) : charAt l n = c := by
  rw [charAt_head_drop]
  cases hd : l.drop n with
  | nil => rw [hd] at h; simp [List.isPrefixOf] at h
  | cons d t =>
      rw [hd] at h
      simp only [List.isPrefixOf, Bool.and_eq_true, beq_iff_eq] at h
      simp [h.1.symm]

theorem applyStartTag_i_gt (l : List Char) (st : PState) (tag : String)
    (attrs : List (String × String)) (sc : Bool) (j : Nat)
    (h1 : st.i < l.length) (h2 : st.i < j) :
    st.i < (applyStartTag l st tag attrs sc j).i := by
  unfold applyStartTag
  dsimp only
  split_ifs
  all_goals try exact h2
  all_goals
    show st.i < (rawTextCapture l (mkOpenElem tag attrs).tagName j).2
  all_goals
    unfold rawTextCapture
  all_goals
    split
  any_goals exact h1
  all_goals
    next ci heq =>
      have := indexOfFrom_some_ge _ _ _ _ heq
      omega

theorem parseStep_i_lt (l : List Char) (st st2 : PState) (hlt : st.i < l.length)
    (h : parseStep l st = .cont st2) : st.i < st2.i := by
  unfold parseStep at h
  dsimp only at h
  split_ifs at h with h1 h2 h3 h4 h5
  · -- comment
    split at h
    · cases h; exact hlt
    · next e heq =>
        cases h
        have := indexOfFrom_some_ge _ _ _ _ heq
        dsimp only
        omega
  · -- bogus markup
    split at h
    · cases h; exact hlt
    · next e heq =>
        cases h
        have := indexOfFrom_some_ge _ _ _ _ heq
        dsimp only
        omega
  · -- end tag
    split at h
    · cases h
    · next e heq =>
        cases h
        have := indexOfFrom_some_ge _ _ _ _ heq
        dsimp only
        omega
  · -- empty tag name
    cases h
    exact Nat.lt_succ_of_le (Nat.le_refl _)
  · -- start tag
    cases h
    refine applyStartTag_i_gt l st _ _ _ _ hlt ?_
    have hj := scanAttrs_le l (l.length + 1)
      (runFrom l (fun c => !(isWsC c ∨ c = '/' ∨ c = '>')) (st.i+1)) [] false
    have hr := runFrom_ge l (fun c => !(isWsC c ∨ c = '/' ∨ c = '>')) (st.i+1)
    omega
  all_goals
    -- text-run goals (one per emptiness combination of the captured text)
    cases h
  all_goals
    dsimp only
  all_goals
    split
  any_goals exact hlt
  all_goals
    next n heq =>
      have hge := indexOfFrom_some_ge _ _ _ _ heq
      have hch := singleton_prefix_charAt l n '<' (indexOfFrom_some_found _ _ _ _ heq)
      have hne : n ≠ st.i := fun he => h1 (he ▸ hch)
      omega

theorem parseLoop_isSome (l : List Char) : ∀ (fuel : Nat) (st : PState),
    l.length - st.i < fuel → (parseLoop l fuel st).isSome = true := by
  intro fuel
  induction fuel with
  | zero => intro st h; omega
  | succ f ih =>
      intro st h
      rw [parseLoop]
      split_ifs with hc
      · cases hs : parseStep l st with
        | cont st2 =>
            have hgt := parseStep_i_lt l st st2 hc hs
            exact ih st2 (by omega)
        | halt st2 => rfl
      · rfl

/-! ## Helper lemmas: start-tag dispatch -/

theorem applyStartTag_push_eq (l : List Char) (st : PState) (tag : String)
    (attrs : List (String × String)) (j : Nat)
    (hv : VOID_ELEMENTS.contains (jsLowerS tag) = false)
    (hr : RAWTEXT_ELEMENTS.contains (jsLowerS tag) = false) :
    applyStartTag l st tag attrs false j =
      { st with stk := mkOpenElem tag attrs :: st.stk, i := j } := by
  unfold applyStartTag
  have h1 : (mkOpenElem tag attrs).tagName = jsLowerS tag := rfl
  dsimp only
  rw [h1, hv, hr]
  simp

theorem applyStartTag_flat_eq (l : List Char) (st : PState) (tag : String)
    (attrs : List (String × String)) (sc : Bool) (j : Nat)
    (h : sc = true ∨ VOID_ELEMENTS.contains (jsLowerS tag) = true) :
    applyStartTag l st tag attrs sc j =
      { appendNode st (Node.element (jsLowerS tag) attrs []) with i := j } := by
  unfold applyStartTag
  have h1 : (mkOpenElem tag attrs).tagName = jsLowerS tag := rfl
  have h2 : (mkOpenElem tag attrs).attributes = attrs := rfl
  dsimp only
  rw [h1, h2]
  rcases h with rfl | hv
  · simp
  · rw [hv]
    simp

/-- Pre-order flattening of a traversal stack. -/
def preCtxList : List (Node × List Node) → List (Node × List Node)
  | [] => []
  | p :: rest => preNode p.1 p.2 ++ preCtxList rest

theorem preCtxList_append : ∀ a b : List (Node × List Node),
    preCtxList (a ++ b) = preCtxList a ++ preCtxList b
  | [], b => by simp [preCtxList]
  | p :: a, b => by
      have ih := preCtxList_append a b
      show preNode p.1 p.2 ++ preCtxList (a ++ b) =
        (preNode p.1 p.2 ++ preCtxList a) ++ preCtxList b
      rw [ih, List.append_assoc]

theorem preCtxList_ctxChildren : ∀ (cs : List Node) (anc : List Node),
    preCtxList (ctxChildren cs anc) = preNodes cs anc
  | [], anc => by simp [ctxChildren, preCtxList, preNodes]
  | n :: cs, anc => by
      simp only [ctxChildren, List.map_cons, preCtxList, preNodes]
      rw [show preCtxList (cs.map (fun c => (c, anc))) = preCtxList (ctxChildren cs anc) from rfl]
      rw [preCtxList_ctxChildren cs anc]

theorem countCtx_append : ∀ a b : List (Node × List Node),
    countCtx (a ++ b) = countCtx a + countCtx b
  | [], b => by simp [countCtx]
  | p :: a, b => by
      have ih := countCtx_append a b
      show nodeCount p.1 + countCtx (a ++ b) = nodeCount p.1 + countCtx a + countCtx b
      omega

theorem countCtx_ctxChildren : ∀ (cs : List Node) (anc : List Node),
    countCtx (ctxChildren cs anc) = nodesCount cs
  | [], anc => rfl
  | n :: cs, anc => by
      show nodeCount n + countCtx (ctxChildren cs anc) = nodeCount n + nodesCount cs
      rw [countCtx_ctxChildren cs anc]

/-- The first-match traversal visits elements in pre-order and returns the
first one matching some group: it computes the head of the filtered
pre-order listing. -/
theorem qsOneLoop_spec (groups : List (List SelectorStep)) : ∀ (fuel : Nat)
    (stack : List (Node × List Node)), countCtx stack ≤ fuel →
    qsOneLoop groups fuel stack =
      ((preCtxList stack).filter (fun p => matchesAnyGroup groups p.1 p.2)).head?.map
        Prod.fst := by
  intro fuel
  induction fuel with
  | zero =>
      intro stack h
      cases stack with
      | nil => rfl
      | cons p rest =>
          exfalso
          have := nodeCount_pos p.1
          simp [countCtx] at h
          omega
  | succ f ih =>
      intro stack h
      cases stack with
      | nil => rfl
      | cons p rest =>
          obtain ⟨n, anc⟩ := p
          cases n with
          | text d =>
              have hr : countCtx rest ≤ f := by
                simp only [countCtx, nodeCount] at h
                omega
              simpa [qsOneLoop, preCtxList, preNode] using ih rest hr
          | element t a cs =>
              have hcnt : nodesCount cs + countCtx rest ≤ f := by
                simp only [countCtx, nodeCount] at h
                omega
              cases hm : matchesAnyGroup groups (Node.element t a cs) anc with
              | true =>
                  simp [qsOneLoop, hm, preCtxList, preNode, List.filter]
              | false =>
                  have hr : countCtx (ctxChildren cs (Node.element t a cs :: anc) ++ rest) ≤ f := by
                    rw [countCtx_append, countCtx_ctxChildren]
                    exact hcnt
                  have hrec := ih _ hr
                  rw [preCtxList_append, preCtxList_ctxChildren] at hrec
                  simpa [qsOneLoop, hm, preCtxList, preNode, List.filter, ctxChildren] using hrec

/-! ## Helper lemmas: entity decoding -/

theorem takeWhile_all (p : Char → Bool) : ∀ l : List Char,
    (∀ c ∈ l, p c = true) → l.takeWhile p = l
  | [] => by simp
  | c :: l => by
      intro h
      have hc := h c (by simp)
      simp only [List.takeWhile, hc]
      rw [takeWhile_all p l (fun d hd => h d (by simp [hd]))]

theorem takeWhile_append_run (p : Char → Bool) : ∀ (ds : List Char) (x : Char) (r : List Char),
    (∀ c ∈ ds, p c = true) → p x = false → (ds ++ x :: r).takeWhile p = ds
  | [], x, r => by
      intro _ hx
      simp [List.takeWhile, hx]
  | d :: ds, x, r => by
      intro h hx
      have hd := h d (by simp)
      show List.takeWhile p (d :: (ds ++ x :: r)) = d :: ds
      simp only [List.takeWhile, hd]
      exact congrArg (d :: ·) (takeWhile_append_run p ds x r (fun c hc => h c (by simp [hc])) hx)

theorem drop_len_append (ds r : List Char) : (ds ++ r).drop ds.length = r := by
  induction ds with
  | nil => simp
  | cons d ds ih => simp [ih]

theorem dec_imp_hex (c : Char) (h : isDecDigit c = true) : isHexDigit c = true := by
  simp only [isDecDigit, decide_eq_true_eq] at h
  simp only [isHexDigit, decide_eq_true_eq]
  omega

theorem tryNumericBody_eval (hex : Bool) (d : Char) (ds : List Char)
    (hhex : ∀ c ∈ d :: ds, isHexDigit c = true) :
    tryNumericBody hex ((d :: ds) ++ [';']) =
      match parseIntJs (if hex then 16 else 10) (d :: ds) with
      | some n => some ([jsFromCharCode n], [])
      | none => some ('&' :: '#' :: (if hex then 'x' :: (d :: ds) else d :: ds) ++ [';'], []) := by
  have hrun : ((d :: ds) ++ [';']).takeWhile isHexDigit = d :: ds :=
    takeWhile_append_run _ _ _ _ hhex (by decide)
  unfold tryNumericBody
  simp only [hrun]
  rw [show (d :: ds).length = ds.length + 1 from rfl]
  rw [show ((d :: ds) ++ [';']).drop (ds.length + 1) = ([';'] : List Char) from
    drop_len_append (d :: ds) [';']]
  simp [List.isEmpty]

theorem tryNumeric_x (r2 : List Char) : tryNumeric ('x' :: r2) = tryNumericBody true r2 := by
  unfold tryNumeric
  rw [if_pos (show charAt ('x' :: r2) 0 = 'x' from rfl), List.tail_cons]

theorem tryNumeric_notx (r1 : List Char) (h : ¬ charAt r1 0 = 'x') :
    tryNumeric r1 = tryNumericBody false r1 := by
  unfold tryNumeric
  rw [if_neg h]

theorem tryNumeric_dec (d : Char) (ds : List Char)
    (hdec : ∀ c ∈ d :: ds, isDecDigit c = true) :
    tryNumeric ((d :: ds) ++ [';']) =
      some ([jsFromCharCode (digitsVal 10 (d :: ds))], []) := by
  have hd := hdec d (by simp)
  have hdx : ¬ charAt ((d :: ds) ++ [';']) 0 = 'x' := by
    show ¬ d = 'x'
    intro he
    rw [he] at hd
    exact absurd hd (by decide)
  have hrun2 : (d :: ds).takeWhile isDecDigit = d :: ds := takeWhile_all _ _ hdec
  rw [tryNumeric_notx _ hdx,
    tryNumericBody_eval false d ds (fun c hc => dec_imp_hex c (hdec c hc))]
  simp [parseIntJs, hrun2, List.isEmpty]

theorem tryNumeric_hex (d : Char) (ds : List Char)
    (hhex : ∀ c ∈ d :: ds, isHexDigit c = true) :
    tryNumeric ('x' :: ((d :: ds) ++ [';'])) =
      some ([jsFromCharCode (digitsVal 16 (d :: ds))], []) := by
  have hrun2 : (d :: ds).takeWhile isHexDigit = d :: ds := takeWhile_all _ _ hhex
  rw [tryNumeric_x, tryNumericBody_eval true d ds hhex]
  simp [parseIntJs, hrun2, List.isEmpty]

theorem tryNumeric_bad (d : Char) (ds : List Char)
    (hhex : ∀ c ∈ d :: ds, isHexDigit c = true) (hd : isDecDigit d = false) :
    tryNumeric ((d :: ds) ++ [';']) =
      some ('&' :: '#' :: (d :: ds) ++ [';'], []) := by
  have hdx : ¬ charAt ((d :: ds) ++ [';']) 0 = 'x' := by
    show ¬ d = 'x'
    intro he
    have := hhex d (by simp)
    rw [he] at this
    exact absurd this (by decide)
  have hrun2 : (d :: ds).takeWhile isDecDigit = [] := by
    simp [List.takeWhile, hd]
  rw [tryNumeric_notx _ hdx, tryNumericBody_eval false d ds hhex]
  simp [parseIntJs, hrun2, List.isEmpty]

theorem tryNumeric_mixed (d : Char) (ds es : List Char)
    (hdec : ∀ c ∈ d :: ds, isDecDigit c = true)
    (hhexes : ∀ c ∈ es, isHexDigit c = true)
    (hstop : ∀ e es2, es = e :: es2 → isDecDigit e = false) :
    tryNumeric ((d :: (ds ++ es)) ++ [';']) =
      some ([jsFromCharCode (digitsVal 10 (d :: ds))], []) := by
  have hd := hdec d (by simp)
  have hdx : ¬ charAt ((d :: (ds ++ es)) ++ [';']) 0 = 'x' := by
    show ¬ d = 'x'
    intro he
    rw [he] at hd
    exact absurd hd (by decide)
  have hall : ∀ c ∈ d :: (ds ++ es), isHexDigit c = true := by
    intro c hc
    rcases List.mem_cons.mp hc with rfl | hm
    · exact dec_imp_hex c (hdec c (by simp))
    · rcases List.mem_append.mp hm with h1 | h1
      · exact dec_imp_hex c (hdec c (by simp [h1]))
      · exact hhexes c h1
  have hrun2 : (d :: (ds ++ es)).takeWhile isDecDigit = d :: ds := by
    show ((d :: ds) ++ es).takeWhile isDecDigit = d :: ds
    cases es with
    | nil => simpa using takeWhile_all isDecDigit (d :: ds) hdec
    | cons e es2 =>
        exact takeWhile_append_run isDecDigit (d :: ds) e es2 hdec (hstop e es2 rfl)
  rw [tryNumeric_notx _ hdx, tryNumericBody_eval false d (ds ++ es) hall]
  simp [parseIntJs, hrun2, List.isEmpty]

theorem alpha_ne_hash (c : Char) (h : isAsciiAlpha c = true) : ¬ c = '#' := by
  intro he
  rw [he] at h
  exact absurd h (by decide)

theorem tryNamed_unknown (a : Char) (as : List Char)
    (halpha : ∀ c ∈ a :: as, isAsciiAlpha c = true)
    (hlk : ENTITY_MAP.lookup (String.mk (a :: as)) = none) :
    tryNamed ((a :: as) ++ [';']) = some ('&' :: (a :: as) ++ [';'], []) := by
  have hrun : ((a :: as) ++ [';']).takeWhile isAsciiAlpha = a :: as :=
    takeWhile_append_run _ _ _ _ halpha (by decide)
  unfold tryNamed
  simp only [hrun]
  rw [show (a :: as).length = as.length + 1 from rfl]
  rw [show ((a :: as) ++ [';']).drop (as.length + 1) = ([';'] : List Char) from
    drop_len_append (a :: as) [';']]
  simp [List.isEmpty, hlk]

theorem tryEntity_hash (r1 : List Char) : tryEntity ('#' :: r1) = tryNumeric r1 := by
  simp [tryEntity]

theorem tryEntity_alpha (a : Char) (as : List Char) (ha : isAsciiAlpha a = true) :
    tryEntity (a :: as) = tryNamed (a :: as) := by
  simp [tryEntity, if_neg (alpha_ne_hash a ha)]

/-- A lone well-formed reference after `&` is replaced and nothing follows. -/
theorem decodeEntitiesL_single (rest rep : List Char)
    (h : tryEntity rest = some (rep, [])) :
    decodeEntitiesL ('&' :: rest) = rep := by
  unfold decodeEntitiesL
  rw [if_pos (by simp)]
  show decodeLoop (rest.length + 1) ('&' :: rest) = rep
  rw [decodeLoop]
  simp [h, decodeLoop]

/-! ## Helper lemmas: chain matching -/

theorem findAncestor_matches : ∀ (anc : List Node) (part : SelectorPart)
    (pr : Node × List Node), findAncestor anc part = some pr →
    matchesSelectorPart pr.1 part = true
  | [], part, pr => by simp [findAncestor]
  | p :: rest, part, pr => by
      unfold findAncestor
      split_ifs with hp
      · intro h
        cases h
        exact hp
      · exact findAncestor_matches rest part pr

theorem findAncestor_none_iff (part : SelectorPart) : ∀ anc : List Node,
    findAncestor anc part = none ↔ ∀ q ∈ anc, matchesSelectorPart q part = false
  | [] => by simp [findAncestor]
  | p :: rest => by
      unfold findAncestor
      split_ifs with hp
      · simp only [false_iff]
        intro h
        have := h p (by simp)
        rw [hp] at this
        cases this
      · rw [findAncestor_none_iff part rest]
        constructor
        · intro h q hq
          rcases List.mem_cons.mp hq with rfl | hmem
          · exact Bool.eq_false_iff.mpr hp
          · exact h q hmem
        · intro h q hq
          exact h q (by simp [hq])

theorem findAncestor_some_iff (part : SelectorPart) (p : Node) (rest : List Node) :
    ∀ anc : List Node, findAncestor anc part = some (p, rest) ↔
      ∃ k, anc[k]? = some p ∧ rest = anc.drop (k+1) ∧ matchesSelectorPart p part = true ∧
        ∀ m q, m < k → anc[m]? = some q → matchesSelectorPart q part = false
  | [] => by simp [findAncestor]
  | p0 :: anc2 => by
      unfold findAncestor
      split_ifs with hp
      · constructor
        · intro h
          injection h with h2
          injection h2 with h3 h4
          subst h3
          subst h4
          exact ⟨0, by simp, by simp, hp, fun m q hm => absurd hm (by omega)⟩
        · rintro ⟨k, hk, hrest, hmatch, hleast⟩
          cases k with
          | zero =>
              simp only [List.getElem?_cons_zero, Option.some_inj] at hk
              subst hk
              simp only [List.drop_succ_cons, List.drop_zero] at hrest
              rw [hrest]
          | succ k1 =>
              have := hleast 0 p0 (by omega) (by simp)
              rw [hp] at this
              cases this
      · rw [findAncestor_some_iff part p rest anc2]
        constructor
        · rintro ⟨k, hk, hrest, hmatch, hleast⟩
          refine ⟨k+1, by simpa using hk, by simpa using hrest, hmatch, ?_⟩
          intro m q hm hq
          cases m with
          | zero =>
              simp only [List.getElem?_cons_zero, Option.some_inj] at hq
              subst hq
              exact Bool.eq_false_iff.mpr hp
          | succ m1 =>
              simp only [List.getElem?_cons_succ] at hq
              exact hleast m1 q (by omega) hq
        · rintro ⟨k, hk, hrest, hmatch, hleast⟩
          cases k with
          | zero =>
              simp only [List.getElem?_cons_zero, Option.some_inj] at hk
              subst hk
              rw [hmatch] at hp
              cases hp rfl
          | succ k1 =>
              simp only [List.getElem?_cons_succ] at hk
              refine ⟨k1, hk, by simpa using hrest, hmatch, ?_⟩
              intro m q hm hq
              exact hleast (m+1) q (by omega) (by simpa using hq)

theorem msc_nil (el : Node) (anc : List Node) : matchesSelectorChain el anc [] = false :=
  rfl

theorem msc_last (el : Node) (anc : List Node) (L : List SelectorStep) (s : SelectorStep) :
    matchesSelectorChain el anc (L ++ [s]) =
      (matchesSelectorPart el s.part && chainLoopR el anc (s :: L.reverse)) := by
  unfold matchesSelectorChain
  rw [List.reverse_append]
  rfl

theorem msc_child (el : Node) (anc : List Node) (L : List SelectorStep)
    (t s : SelectorStep) (hc : s.combinator = .child) :
    matchesSelectorChain el anc (L ++ [t, s]) =
      (matchesSelectorPart el s.part &&
        match anc with
        | [] => false
        | p :: panc => matchesSelectorChain p panc (L ++ [t])) := by
  have h1 : (L ++ [t, s]).reverse = s :: t :: L.reverse := by simp
  unfold matchesSelectorChain
  rw [h1]
  have h2 : (L ++ [t]).reverse = t :: L.reverse := by simp
  rw [h2]
  show (matchesSelectorPart el s.part && chainLoopR el anc (s :: t :: L.reverse)) = _
  rw [show chainLoopR el anc (s :: t :: L.reverse) =
      (match s.combinator with
       | .child =>
         match anc with
         | [] => false
         | p :: panc =>
             matchesSelectorPart p t.part && chainLoopR p panc (t :: L.reverse)
       | .descendant =>
         match findAncestor anc t.part with
         | none => false
         | some pr => chainLoopR pr.1 pr.2 (t :: L.reverse)) from rfl]
  rw [hc]

theorem msc_descendant (el : Node) (anc : List Node) (L : List SelectorStep)
    (t s : SelectorStep) (hd : s.combinator = .descendant) :
    matchesSelectorChain el anc (L ++ [t, s]) =
      (matchesSelectorPart el s.part &&
        match findAncestor anc t.part with
        | none => false
        | some pr => matchesSelectorChain pr.1 pr.2 (L ++ [t])) := by
  have h1 : (L ++ [t, s]).reverse = s :: t :: L.reverse := by simp
  unfold matchesSelectorChain
  rw [h1]
  have h2 : (L ++ [t]).reverse = t :: L.reverse := by simp
  rw [h2]
  show (matchesSelectorPart el s.part && chainLoopR el anc (s :: t :: L.reverse)) = _
  rw [show chainLoopR el anc (s :: t :: L.reverse) =
      (match s.combinator with
       | .child =>
         match anc with
         | [] => false
         | p :: panc =>
             matchesSelectorPart p t.part && chainLoopR p panc (t :: L.reverse)
       | .descendant =>
         match findAncestor anc t.part with
         | none => false
         | some pr => chainLoopR pr.1 pr.2 (t :: L.reverse)) from rfl]
  rw [hd]
  try
    cases hfa : findAncestor anc t.part with
    | none => rfl
    | some pr =>
        have := findAncestor_matches anc t.part pr hfa
        simp [this]

/-! ## Claims -/

/-- C1: for every input string, `parse` terminates and returns a Document.
The builder's main loop advances its cursor on every iteration (whatever
the input: truncated tags, truncated comments and mismatched end tags are
resolved by the recovery branches), so `length + 1` units of fuel are never
exhausted and the fuel-indexed loop always returns a state, from which a
Document is produced; there is no error channel. -/
theorem parse_total_returns_document (html : String) :
    ∃ d : Document, parse html = some d := by
  have h0 : html.toList.length - (0 : Nat) < html.toList.length + 1 := by omega
  have h := parseLoop_isSome html.toList (html.toList.length + 1) ⟨0, [], []⟩ h0
  unfold parse
  dsimp only
  cases hp : parseLoop html.toList (html.toList.length + 1) ⟨0, [], []⟩ with
  | none => rw [hp] at h; cases h
  | some st => exact ⟨flushState st, rfl⟩

/-- C2: on an end tag `</name>` (with a nonempty, lower-cased name), the
builder scans the open-element stack from the top — the Document root is
not on the stack — for the nearest entry whose tag name equals the name;
if the nearest match sits at depth `k` from the top, the stack is truncated
through it (elements `0..k` are closed, every element opened after the
match implicitly), leaving exactly the open tags below it; if no entry
matches, the end tag is discarded and the state is unchanged.  Both sides
of the comparison were lower-cased by the tokenizer and the `Element`
constructor, which is how the match is case-insensitive. -/
theorem end_tag_stack_recovery (st : PState) (name : String) (hne : name ≠ "") :
    (∀ k e, st.stk[k]? = some e → e.tagName = name →
        (∀ m em, m < k → st.stk[m]? = some em → em.tagName ≠ name) →
        handleEndTag st name = closeN (k+1) st ∧
        (handleEndTag st name).stk.map OpenElem.tagName =
          (st.stk.map OpenElem.tagName).drop (k+1)) ∧
    ((∀ e ∈ st.stk, e.tagName ≠ name) → handleEndTag st name = st) := by
  constructor
  · intro k e hk he hleast
    have hscan := scanForTag_of_least name st.stk k e hk he hleast
    have heq : handleEndTag st name = closeN (k+1) st := by
      unfold handleEndTag
      rw [if_neg hne, hscan]
    exact ⟨heq, by rw [heq, closeN_stk_tags]⟩
  · intro hnone
    have hscan := scanForTag_none name st.stk hnone
    unfold handleEndTag
    rw [if_neg hne, hscan]

theorem end_tag_stack_recovery_witness :
    handleEndTag ⟨0, [⟨"i", [], []⟩, ⟨"b", [], []⟩], []⟩ ("b") =
      closeN 2 ⟨0, [⟨"i", [], []⟩, ⟨"b", [], []⟩], []⟩ ∧
    (handleEndTag ⟨0, [⟨"i", [], []⟩, ⟨"b", [], []⟩], []⟩ ("b")).stk.map OpenElem.tagName
      = [] := by
  have h := (end_tag_stack_recovery ⟨0, [⟨"i", [], []⟩, ⟨"b", [], []⟩], []⟩ ("b")
      (by decide)).1 1 ⟨"b", [], []⟩ (by decide) rfl ?_
  · exact ⟨h.1, by rw [h.2]; decide⟩
  · intro m em hm hme
    cases m with
    | zero =>
        simp only [List.getElem?_cons_zero, Option.some_inj] at hme
        subst hme
        decide
    | succ m1 => omega

/-- C3: in every Document returned by `parse`, every element whose tag
name is in the void set has an empty child list, whatever the input: void
tags are never pushed onto the open-element stack, so no later markup can
land inside them.  The invariant `stVoidOK` is carried through every step
of the builder loop and through the final fold of still-open elements. -/
theorem parse_void_elements_childless (html : String) :
    docVoidOK (parseD html) = true := by
  unfold parseD parse
  dsimp only
  cases hp : parseLoop html.toList (html.toList.length + 1) ⟨0, [], []⟩ with
  | none => rfl
  | some st =>
      have hinv : stVoidOK (⟨0, [], []⟩ : PState) := ⟨rfl, by simp⟩
      have h2 := parseLoop_void html.toList _ _ _ hp hinv
      exact flushState_void st h2

/-- C5 counterexample: the claim says numeric references are substituted
by the corresponding character, but `String.fromCharCode` truncates the
value modulo 2^16, so `&#65600;` (code point U+10040) decodes to `"@"`
(U+0040), not to the character U+10040. -/
theorem entity_decode_counterexample :
    decodeEntities ("&#65600;") = ("@") ∧
    decodeEntities ("&#65600;") ≠ String.mk [Char.ofNat 65600] := by
  constructor <;> decide

/-- C5 (amended): entity decoding replaces the six fixed named entities by
their table values (`nbsp` giving U+0020); a decimal reference substitutes
the UTF-16 code unit of the value of the longest leading run of decimal
digits of its payload, modulo 2^16 (exact as long as the payload value
stays below 2^53, where JavaScript numbers are exact integers); a
hexadecimal reference does the same with its full payload in base 16; a
payload of hexadecimal-range characters with no leading decimal digit
parses as NaN and is left verbatim; and an unknown named entity passes
through literally unchanged.  The last conjunct covers mixed payloads: a
decimal-digit run followed by non-decimal hexadecimal-range characters
(such as `&#12a;`) substitutes the code unit of the decimal prefix's
value, rather than staying verbatim. -/
theorem entity_decode_amended :
    (decodeEntities ("&amp;") = ("&") ∧ decodeEntities ("&lt;") = ("<") ∧
     decodeEntities ("&gt;") = (">") ∧
     decodeEntities ("&quot;") = String.mk [Char.ofNat 34] ∧
     decodeEntities ("&apos;") = String.mk [Char.ofNat 39] ∧
     decodeEntities ("&nbsp;") = (" ")) ∧
    (∀ d ds, (∀ c ∈ d :: ds, isDecDigit c = true) → digitsVal 10 (d :: ds) < 2^53 →
       decodeEntitiesL ('&' :: '#' :: ((d :: ds) ++ [';'])) =
         [jsFromCharCode (digitsVal 10 (d :: ds))]) ∧
    (∀ d ds, (∀ c ∈ d :: ds, isHexDigit c = true) → digitsVal 16 (d :: ds) < 2^53 →
       decodeEntitiesL ('&' :: '#' :: 'x' :: ((d :: ds) ++ [';'])) =
         [jsFromCharCode (digitsVal 16 (d :: ds))]) ∧
    (∀ d ds, (∀ c ∈ d :: ds, isHexDigit c = true) → isDecDigit d = false →
       decodeEntitiesL ('&' :: '#' :: ((d :: ds) ++ [';'])) =
         '&' :: '#' :: ((d :: ds) ++ [';'])) ∧
    (∀ a as, (∀ c ∈ a :: as, isAsciiAlpha c = true) →
       ENTITY_MAP.lookup (String.mk (a :: as)) = none →
       decodeEntitiesL ('&' :: ((a :: as) ++ [';'])) = '&' :: ((a :: as) ++ [';'])) ∧
    (∀ d ds es, (∀ c ∈ d :: ds, isDecDigit c = true) →
       (∀ c ∈ es, isHexDigit c = true) →
       (∀ e es2, es = e :: es2 → isDecDigit e = false) →
       digitsVal 10 (d :: ds) < 2^53 →
       decodeEntitiesL ('&' :: '#' :: ((d :: (ds ++ es)) ++ [';'])) =
         [jsFromCharCode (digitsVal 10 (d :: ds))]) := by
  refine ⟨⟨by decide, by decide, by decide, by decide, by decide, by decide⟩,
    ?_, ?_, ?_, ?_, ?_⟩
  · intro d ds hdec _
    exact decodeEntitiesL_single _ _ (by rw [tryEntity_hash, tryNumeric_dec d ds hdec])
  · intro d ds hhex _
    exact decodeEntitiesL_single _ _ (by rw [tryEntity_hash, tryNumeric_x, ← tryNumeric_x,
      tryNumeric_hex d ds hhex])
  · intro d ds hhex hd
    refine (decodeEntitiesL_single _ _
      (by rw [tryEntity_hash, tryNumeric_bad d ds hhex hd])).trans ?_
    simp
  · intro a as halpha hlk
    have ha := halpha a (by simp)
    have hn : tryEntity ((a :: as) ++ [';']) = some ('&' :: (a :: as) ++ [';'], []) := by
      rw [show ((a :: as) ++ [';'] : List Char) = a :: (as ++ [';']) from rfl,
        tryEntity_alpha a (as ++ [';']) ha]
      exact tryNamed_unknown a as halpha hlk
    refine (decodeEntitiesL_single _ _ hn).trans ?_
    simp
  · intro d ds es hdec hhexes hstop _
    exact decodeEntitiesL_single _ _
      (by rw [tryEntity_hash, tryNumeric_mixed d ds es hdec hhexes hstop])

theorem entity_decode_amended_witness :
    decodeEntitiesL ('&' :: '#' :: (('6' :: ['5']) ++ [';'])) =
      [jsFromCharCode (digitsVal 10 ('6' :: ['5']))] ∧
    decodeEntitiesL ('&' :: '#' :: (('1' :: (['2'] ++ ['a'])) ++ [';'])) =
      [jsFromCharCode (digitsVal 10 ('1' :: ['2']))] :=
  ⟨entity_decode_amended.2.1 '6' ['5'] (by decide) (by decide),
   entity_decode_amended.2.2.2.2.2 '1' ['2'] ['a'] (by decide) (by decide)
     (by intro e es2 h; cases h; decide) (by decide)⟩

/-- C6: the claim describes the intended semantics of `querySelectorAll`
(the spec states the selector compiler never fails), but the compiler's
group loop does not advance past a top-level comma inside a group — a
state reachable through a quoted comma outside brackets, e.g. the selector
`"x,y"` (with the quotes part of the selector) — so it pushes empty steps
forever: for every amount of fuel the loop yields `none` (the source loops
forever), `parseSelectorList` diverges, and `querySelectorAll` never
returns.  The last conjunct isolates the slip: the simple-selector scanner
returns its input position unchanged when resting on a comma. -/
theorem selector_comma_hang :
    (∀ (fuel : Nat) (comb : Combinator) (acc : List SelectorStep),
        parseGroupLoop ['"', 'x', ',', 'y', '"'] fuel 2 comb acc = none) ∧
    String.toList ("\"x,y\"") = ['"', 'x', ',', 'y', '"'] ∧
    parseSelectorList ("\"x,y\"") = none ∧
    docQuerySelectorAll ⟨[Node.element ("a") [] []]⟩ ("\"x,y\"") = none ∧
    (parseSimpleSelector ['"', 'x', ',', 'y', '"'] 2).2 = 2 := by
  refine ⟨?_, by decide, by decide, by decide, by decide⟩
  intro fuel
  induction fuel with
  | zero => intro comb acc; rfl
  | succ f ih => intro comb acc; exact ih .descendant (acc ++ [⟨comb, {}⟩])

/-- C7: chain matching walks right to left.  A zero-step chain never
matches; a matching element always satisfies the rightmost step's part; a
child combinator requires the immediate parent element to exist and the
rest of the chain to match from it; a descendant combinator commits to the
nearest ancestor satisfying the next part leftward — `findAncestor`
returns exactly the least-index match, and fails only when no ancestor
matches — with no backtracking: the rest of the chain is evaluated from
that ancestor alone. -/
theorem chain_matching_right_to_left :
    (∀ (el : Node) (anc : List Node), matchesSelectorChain el anc [] = false) ∧
    (∀ (el : Node) (anc : List Node) (L : List SelectorStep) (s : SelectorStep),
        matchesSelectorChain el anc (L ++ [s]) = true →
        matchesSelectorPart el s.part = true) ∧
    (∀ (el : Node) (anc : List Node) (L : List SelectorStep) (t s : SelectorStep),
        s.combinator = .child →
        matchesSelectorChain el anc (L ++ [t, s]) =
          (matchesSelectorPart el s.part &&
            match anc with
            | [] => false
            | p :: panc => matchesSelectorChain p panc (L ++ [t]))) ∧
    (∀ (el : Node) (anc : List Node) (L : List SelectorStep) (t s : SelectorStep),
        s.combinator = .descendant →
        matchesSelectorChain el anc (L ++ [t, s]) =
          (matchesSelectorPart el s.part &&
            match findAncestor anc t.part with
            | none => false
            | some pr => matchesSelectorChain pr.1 pr.2 (L ++ [t]))) ∧
    (∀ (anc : List Node) (part : SelectorPart) (p : Node) (rest : List Node),
        findAncestor anc part = some (p, rest) ↔
          ∃ k, anc[k]? = some p ∧ rest = anc.drop (k+1) ∧
            matchesSelectorPart p part = true ∧
            ∀ m q, m < k → anc[m]? = some q → matchesSelectorPart q part = false) ∧
    (∀ (anc : List Node) (part : SelectorPart),
        findAncestor anc part = none ↔ ∀ q ∈ anc, matchesSelectorPart q part = false) := by
  refine ⟨msc_nil, ?_, ?_, ?_, ?_, ?_⟩
  · intro el anc L s h
    rw [msc_last] at h
    simp only [Bool.and_eq_true] at h
    exact h.1
  · intro el anc L t s hc
    exact msc_child el anc L t s hc
  · intro el anc L t s hd
    exact msc_descendant el anc L t s hd
  · intro anc part p rest
    exact findAncestor_some_iff part p rest anc
  · intro anc part
    exact findAncestor_none_iff part anc

theorem chain_matching_witness :
    matchesSelectorChain (Node.element ("span") [] []) [Node.element ("div") [] []]
      ([] ++ [⟨Combinator.descendant, { tag := some ("div") }⟩,
              ⟨Combinator.child, { tag := some ("span") }⟩]) = true := by
  rw [chain_matching_right_to_left.2.2.1 (Node.element ("span") [] [])
    [Node.element ("div") [] []] []
    ⟨Combinator.descendant, { tag := some ("div") }⟩
    ⟨Combinator.child, { tag := some ("span") }⟩ rfl]
  decide

/-- C8: for every node, `textContent` — computed by the source's iterative
explicit-stack loop — equals the concatenation, in document order
(pre-order, depth-first, left-to-right), of the data of every Text node in
the node's subtree; a Text node's own `textContent` is its data. -/
theorem textContent_document_order :
    (∀ n : Node, n.textContent = concatAll (textsNode n)) ∧
    (∀ d : Document, d.textContent = concatAll (textsNodes d.children)) := by
  constructor
  · intro n
    cases n with
    | text d => simp [Node.textContent, textsNode, concatAll]
    | element t a cs =>
        have h := textLoop_spec (nodesCount cs) cs (Nat.le_refl _)
        simpa [Node.textContent, textsNode] using h
  · intro d
    exact textLoop_spec (nodesCount d.children) d.children (Nat.le_refl _)

/-- C9 counterexample: `<div/>` has a tag name in neither the void set nor
the raw-text set, yet it is not pushed onto the stack because of its
self-closing marker: the following text lands beside the div, not inside
it, refuting the claim as stated. -/
theorem start_tag_push_counterexample :
    parseD ("<div/>x") = ⟨[Node.element ("div") [] [], Node.text ("x")]⟩ ∧
    parseD ("<div/>x") ≠ ⟨[Node.element ("div") [] [Node.text ("x")]]⟩ := by
  constructor <;> decide

/-- C9 (amended): every start tag that is **not marked self-closing** and
whose lower-cased name is in neither the void set nor the raw-text set is
pushed onto the open-element stack as the new current container, with no
children yet; a subsequent append then lands in that element's child
list. -/
theorem start_tag_push_amended :
    ∀ (l : List Char) (st : PState) (tag : String) (attrs : List (String × String)) (j : Nat),
      VOID_ELEMENTS.contains (jsLowerS tag) = false →
      RAWTEXT_ELEMENTS.contains (jsLowerS tag) = false →
      applyStartTag l st tag attrs false j =
        { st with stk := mkOpenElem tag attrs :: st.stk, i := j } ∧
      ∀ n : Node, appendNode (applyStartTag l st tag attrs false j) n =
        { st with stk := { mkOpenElem tag attrs with children := [n] } :: st.stk, i := j } := by
  intro l st tag attrs j hv hr
  have heq := applyStartTag_push_eq l st tag attrs j hv hr
  refine ⟨heq, ?_⟩
  intro n
  rw [heq]
  simp [appendNode, mkOpenElem]

theorem start_tag_push_amended_witness :
    applyStartTag [] ⟨0, [], []⟩ ("div") [] false 5 =
      ⟨5, [⟨"div", [], []⟩], []⟩ ∧
    appendNode (applyStartTag [] ⟨0, [], []⟩ ("div") [] false 5) (Node.text ("x")) =
      ⟨5, [⟨"div", [], [Node.text ("x")]⟩], []⟩ := by
  have h := start_tag_push_amended [] ⟨0, [], []⟩ ("div") [] 5 (by decide) (by decide)
  exact ⟨h.1, h.2 (Node.text ("x"))⟩

/-- C10: `getElementById("")` evaluates `querySelector("#")`; the lone `#`
compiles to a single descendant step whose part has no constraints (the
empty identifier is dropped), and a constraint-free part matches every
element, so the query returns the head of the pre-order listing of the
document's elements — the first element in document order — rather than
null whenever the document has any element at all. -/
theorem get_element_by_id_empty :
    parseSelectorList ("#") = some [[⟨Combinator.descendant, {}⟩]] ∧
    ∀ d : Document, docGetElementById d "" =
      some (((preNodes d.children []).head?).map Prod.fst) := by
  constructor
  · decide
  · intro d
    have hsel : (("#" : String) ++ "") = "#" := by decide
    have hmatch : ∀ (e : Node) (a : List Node),
        matchesAnyGroup [[⟨Combinator.descendant, {}⟩]] e a = true := by
      intro e a
      rfl
    unfold docGetElementById docQuerySelector
    rw [hsel, show parseSelectorList ("#") = some [[⟨Combinator.descendant, {}⟩]] from by decide]
    have hspec := qsOneLoop_spec [[⟨Combinator.descendant, {}⟩]]
      (countCtx (ctxChildren d.children [])) (ctxChildren d.children []) (Nat.le_refl _)
    rw [Option.map_some']
    rw [hspec]
    rw [List.filter_eq_self.mpr (fun (p : Node × List Node) _ => hmatch p.1 p.2)]
    rw [preCtxList_ctxChildren]

end SimpleHTMLParser
